import Mathlib

/-!
Shallow embedding of `src/exercise-merger.py`, the APEX precalculus exercise
merger: a text preprocessor expanding content-input directives
(`\exinput`, `\exsetinput`) and three fixed label tokens
(`\printconcepts`, `\printproblems`, `\printreview`) by repeated passes up
to a pass cap.

Modelling decisions:
* Document text is `List Char`; filesystem paths are `String`.
* The filesystem is a value `FS`: `dirExists` models `EXERCISES_DIR.exists()`,
  and `files` maps a path string (relative to the process working directory,
  exactly as the Python code passes it to `Path.is_file` / `read_text`) to
  `some content` for a readable file and to `none` for a file that exists but
  whose `read_text` raises; an absent key models `is_file()` being false.
* Warnings (`logging.warning`) and the global `MISSING_DIR_WARNED` flag are
  threaded explicitly as a `PState` value.
* `re.sub` with the pattern `BACKSLASH name LBRACE ([^ RBRACE ]+) RBRACE` is a
  left-to-right scan: at each position the engine either matches (key literal,
  then a maximal nonempty run of non-right-brace characters, then a right
  brace) and continues after the match, or emits one character and moves on.
  The scanners below implement exactly that, with a fuel argument (always
  instantiated with the text length, which suffices because every step
  consumes at least one character) so that all recursion is structural and
  kernel-computable.
* `pathlib` suffix handling (`Path.suffix` / `Path.with_suffix`) is modelled
  character-exactly for relative paths without redundant separator
  normalization; the arguments appearing in the specification's claims are
  plain file names.
-/

namespace Merger

def lbrace : Char := '\x7b'

def rbrace : Char := '\x7d'

/-- The warnings the program can log, one constructor per `logging.warning`
call site. -/
inductive Warning where
  | missingDir : Warning
  | missingFile : String → Warning
  | unreadable : String → Warning
  | maxPasses : Nat → Warning
deriving DecidableEq

/-- Mutable process state: the global `MISSING_DIR_WARNED` flag and the
sequence of warnings emitted so far. -/
structure PState where
  warnedMissingDir : Bool
  log : List Warning
deriving DecidableEq

/-- State at interpreter start-up: flag clear, no warnings logged. -/
def initState : PState := { warnedMissingDir := false, log := [] }

/-- The filesystem as seen by one run. -/
structure FS where
  dirExists : Bool
  files : List (String × Option String)
deriving DecidableEq

/-- `EXERCISES_DIR = Path("exercises")`. -/
def EXERCISES_DIR : String := "exercises"

/-- `Path(name).suffix` for a final path component `name`: the part from the
last dot on, provided that dot is neither the first character nor the last. -/
def nameSuffix (name : List Char) : List Char :=
  let after := (name.reverse.takeWhile (fun c => c ≠ '.')).reverse
  if name.contains '.' ∧ after.length ≠ 0 ∧ after.length + 1 < name.length then
    '.' :: after
  else []

/-- `ensure_tex_extension`: split off the final path component, and if its
suffix is not `.tex`, replace the suffix by `.tex` (append when there is no
suffix), as `Path.with_suffix(".tex")` does. -/
def ensure_tex_extension (s : String) : String :=
  let cs := s.data
  let name := (cs.reverse.takeWhile (fun c => c ≠ '/')).reverse
  let pre := cs.take (cs.length - name.length)
  if nameSuffix name = ".tex".data then s
  else
    let newName :=
      if nameSuffix name = [] then name ++ ".tex".data
      else name.take (name.length - (nameSuffix name).length) ++ ".tex".data
    String.mk (pre ++ newName)

/-- `load_file_if_exists`: normalize the extension, then warn-and-fail when
the path is not a file, warn-and-fail when reading raises, and return the
contents otherwise. -/
def load_file_if_exists (fs : FS) (st : PState) (rel : String) :
    Option String × PState :=
  let path := ensure_tex_extension rel
  match fs.files.lookup path with
  | none => (none, { st with log := st.log ++ [Warning.missingFile path] })
  | some none => (none, { st with log := st.log ++ [Warning.unreadable path] })
  | some (some c) => (some c, st)

/-- `_warn_missing_exercises_dir_once`: log the missing-directory warning only
when the global flag is still clear, then set the flag. -/
def warn_missing_exercises_dir_once (st : PState) : PState :=
  if st.warnedMissingDir then st
  else { warnedMissingDir := true, log := st.log ++ [Warning.missingDir] }

/-- The body of the `repl` closures of `replace_exsetinput` and
`replace_exinput` (they are textually identical in the source): when the
exercises directory is missing, warn once and return the matched text
verbatim; otherwise load the file, returning its contents on success and the
matched text verbatim on failure.  `key` is the matched literal up to and
including the opening brace, so the whole match is `key ++ arg ++ [rbrace]`. -/
def directiveRepl (fs : FS) (key : List Char) (arg : List Char) (st : PState) :
    List Char × PState :=
  if fs.dirExists then
    match load_file_if_exists fs st (String.mk arg) with
    | (some c, st') => (c.data, st')
    | (none, st') => (key ++ arg ++ [rbrace], st')
  else
    (key ++ arg ++ [rbrace], warn_missing_exercises_dir_once st)

/-- Capture of `([^ rbrace ]+) rbrace`: the maximal run of non-right-brace
characters (which must be nonempty), followed by a right brace; returns the
captured argument and the remainder after the closing brace. -/
def takeArg (cs : List Char) : Option (List Char × List Char) :=
  match cs.dropWhile (fun c => c ≠ rbrace) with
  | [] => none
  | _ :: rest =>
    if cs.takeWhile (fun c => c ≠ rbrace) = [] then none
    else some (cs.takeWhile (fun c => c ≠ rbrace), rest)

/-- One `pattern.sub(repl, text)` scan for a content-input directive whose
literal part is `key`: leftmost-first, non-overlapping, continuing after each
match.  `fuel` only bounds the recursion; `fuel = text.length` always
suffices since every step consumes at least one character. -/
def subDirective (fs : FS) (key : List Char) :
    Nat → List Char → PState → List Char × PState
  | 0, t, st => (t, st)
  | _ + 1, [], st => ([], st)
  | fuel + 1, c :: cs, st =>
    if key.isPrefixOf (c :: cs) then
      match takeArg ((c :: cs).drop key.length) with
      | some (arg, rest) =>
        let p := directiveRepl fs key arg st
        let q := subDirective fs key fuel rest p.2
        (p.1 ++ q.1, q.2)
      | none =>
        let q := subDirective fs key fuel cs st
        (c :: q.1, q.2)
    else
      let q := subDirective fs key fuel cs st
      (c :: q.1, q.2)

/-- The arguments captured by the successive matches of one `subDirective`
scan, in order (a pure shadow of the scan, used to state lemmas). -/
def dirArgs (key : List Char) : Nat → List Char → List (List Char)
  | 0, _ => []
  | _ + 1, [] => []
  | fuel + 1, c :: cs =>
    if key.isPrefixOf (c :: cs) then
      match takeArg ((c :: cs).drop key.length) with
      | some (arg, rest) => arg :: dirArgs key fuel rest
      | none => dirArgs key fuel cs
    else dirArgs key fuel cs

/-- Literal part of the `exinput` pattern, up to the opening brace. -/
def exinputKey : List Char := ("\\exinput" ++ "\x7b").data

/-- Literal part of the `exsetinput` pattern, up to the opening brace. -/
def exsetinputKey : List Char := ("\\exsetinput" ++ "\x7b").data

/-- `replace_exsetinput`. -/
def replace_exsetinput (fs : FS) (t : List Char) (st : PState) :
    List Char × PState :=
  subDirective fs exsetinputKey t.length t st

/-- `replace_exinput`. -/
def replace_exinput (fs : FS) (t : List Char) (st : PState) :
    List Char × PState :=
  subDirective fs exinputKey t.length t st

/-- Python word character for the word-boundary assertion `\b` (ASCII range,
which covers every string this development evaluates). -/
def isWordChar (c : Char) : Bool := c.isAlphanum || c = '_'

/-- The zero-width `\b` after a word character: satisfied at end of text or
before a non-word character. -/
def boundaryOk : List Char → Bool
  | [] => true
  | c :: _ => !isWordChar c

/-- One `re.sub` scan for a fixed token ending in a word character and
followed by `\b`: replace each leftmost occurrence of `tok` whose following
character is not a word character. -/
def subToken (tok repl : List Char) : Nat → List Char → List Char
  | 0, t => t
  | _ + 1, [] => []
  | fuel + 1, c :: cs =>
    if tok.isPrefixOf (c :: cs) && boundaryOk ((c :: cs).drop tok.length) then
      repl ++ subToken tok repl fuel ((c :: cs).drop tok.length)
    else
      c :: subToken tok repl fuel cs

def conceptsTok : List Char := "\\printconcepts".data

def problemsTok : List Char := "\\printproblems".data

def reviewTok : List Char := "\\printreview".data

def conceptsLabel : List Char := "Terms and Concepts".data

def problemsLabel : List Char := "Problems".data

def reviewLabel : List Char := "Review".data

/-- `replace_print_tokens`: the three label substitutions, in source order. -/
def replace_print_tokens (t : List Char) : List Char :=
  let t1 := subToken conceptsTok conceptsLabel t.length t
  let t2 := subToken problemsTok problemsLabel t1.length t1
  subToken reviewTok reviewLabel t2.length t2

/-- `process_once`: one full pass, `replace_exsetinput` then `replace_exinput`
then `replace_print_tokens`. -/
def process_once (fs : FS) (t : List Char) (st : PState) :
    List Char × PState :=
  let p := replace_exsetinput fs t st
  let q := replace_exinput fs p.1 p.2
  (replace_print_tokens q.1, q.2)

/-- The loop body of `process_with_recursion`: run up to `fuel` more passes,
return as soon as a pass leaves the text unchanged, and when the budget runs
out log the exhaustion warning (mentioning the original `max_passes`) and
return the last text. -/
def processLoop (fs : FS) (max_passes : Nat) :
    Nat → List Char → PState → List Char × PState
  | 0, prev, st =>
    (prev, { st with log := st.log ++ [Warning.maxPasses max_passes] })
  | fuel + 1, prev, st =>
    let p := process_once fs prev st
    if p.1 = prev then p
    else processLoop fs max_passes fuel p.1 p.2

/-- `process_with_recursion`. -/
def process_with_recursion (fs : FS) (t : List Char) (st : PState)
    (max_passes : Nat) : List Char × PState :=
  processLoop fs max_passes max_passes t st

/-- Default value of the `max_passes` parameter in the source. -/
def DEFAULT_MAX_PASSES : Nat := 10

/-- `process_with_recursion` at its default pass budget, as `main` calls it. -/
def process_default (fs : FS) (t : List Char) (st : PState) :
    List Char × PState :=
  process_with_recursion fs t st DEFAULT_MAX_PASSES

/-- The text produced by one pass (the text component of `process_once` does
not depend on the warning state, proved below). -/
def passText (fs : FS) (t : List Char) : List Char :=
  (process_once fs t initState).1

/-- `n` passes of `passText`. -/
def iterPass (fs : FS) : Nat → List Char → List Char
  | 0, t => t
  | n + 1, t => iterPass fs n (passText fs t)

/-- A directive argument whose resolution fails: the exercises directory is
missing, or the normalized path is not a readable file. -/
def resolveFails (fs : FS) (a : List Char) : Bool :=
  !fs.dirExists ||
    match fs.files.lookup (ensure_tex_extension (String.mk a)) with
    | some (some _) => false
    | _ => true

/-- Number of missing-directory warnings in a log. -/
def dirWarnCount : List Warning → Nat
  | [] => 0
  | Warning.missingDir :: l => dirWarnCount l + 1
  | _ :: l => dirWarnCount l

/-- Missing-directory warnings already logged plus the one still allowed by a
clear flag; invariant under every operation of the program. -/
def dirMeasure (st : PState) : Nat :=
  dirWarnCount st.log + (if st.warnedMissingDir then 0 else 1)

/-- Number of pass-budget-exhaustion warnings in a log. -/
def mpCount : List Warning → Nat
  | [] => 0
  | Warning.maxPasses _ :: l => mpCount l + 1
  | _ :: l => mpCount l

/-- A regex occurrence of token `tok` (followed by `\b`) at the head of `l`. -/
def tokenMatchAt (tok : List Char) (l : List Char) : Bool :=
  tok.isPrefixOf l && boundaryOk (l.drop tok.length)

/-- Some suffix of `l` carries a regex occurrence of `tok` followed by `\b`. -/
def containsToken (tok : List Char) : List Char → Bool
  | [] => tokenMatchAt tok []
  | c :: cs => tokenMatchAt tok (c :: cs) || containsToken tok cs

/-! ### Basic facts about prefixes and argument capture -/

theorem isPrefixOf_drop {l m : List Char} (h : l.isPrefixOf m = true) :
    m = l ++ m.drop l.length := by
  induction l generalizing m with
  | nil => simp
  | cons a l ih =>
    cases m with
    | nil => simp [List.isPrefixOf] at h
    | cons b m =>
      simp only [List.isPrefixOf, Bool.and_eq_true, beq_iff_eq] at h
      obtain ⟨rfl, h2⟩ := h
      simpa using ih h2

theorem dropWhile_head_not {p : Char → Bool} :
    ∀ (l : List Char) (c : Char) (rest : List Char),
      l.dropWhile p = c :: rest → p c = false := by
  intro l
  induction l with
  | nil => intro c rest h; simp [List.dropWhile] at h
  | cons a l ih =>
    intro c rest h
    by_cases hp : p a = true
    · rw [List.dropWhile_cons, if_pos hp] at h
      exact ih c rest h
    · rw [List.dropWhile_cons, if_neg hp] at h
      injection h with h1 _
      subst h1
      simpa using hp

theorem takeArg_sound {cs arg rest : List Char}
    (h : takeArg cs = some (arg, rest)) :
    arg ≠ [] ∧ cs = arg ++ rbrace :: rest := by
  cases hd : cs.dropWhile (fun c => c ≠ rbrace) with
  | nil =>
    simp only [takeArg, hd] at h
    exact Option.noConfusion h
  | cons x xs =>
    simp only [takeArg, hd] at h
    by_cases ht : cs.takeWhile (fun c => c ≠ rbrace) = []
    · rw [if_pos ht] at h; exact absurd h (by simp)
    · rw [if_neg ht] at h
      have hpair : cs.takeWhile (fun c => c ≠ rbrace) = arg ∧ xs = rest := by
        simpa using h
      obtain ⟨harg, hrest⟩ := hpair
      have hx : x = rbrace := by
        have := dropWhile_head_not cs x xs hd
        simpa using this
      refine ⟨harg ▸ ht, ?_⟩
      have hsplit := List.takeWhile_append_dropWhile
        (fun c => decide (c ≠ rbrace)) cs
      rw [harg, hd, hx, hrest] at hsplit
      exact hsplit.symm

/-! ### The generic content-directive scan -/

theorem dirArgs_nil_sub {fs : FS} {key : List Char} :
    ∀ {fuel : Nat} {t : List Char} {st : PState},
      dirArgs key fuel t = [] → subDirective fs key fuel t st = (t, st) := by
  intro fuel
  induction fuel with
  | zero => intro t st _; rfl
  | succ fuel ih =>
    intro t st h
    cases t with
    | nil => rfl
    | cons c cs =>
      cases hk : key.isPrefixOf (c :: cs) with
      | true =>
        cases hta : takeArg ((c :: cs).drop key.length) with
        | none =>
          simp only [dirArgs, hk, if_true, hta] at h
          simp only [subDirective, hk, if_true, hta]
          rw [ih h]
        | some pr =>
          obtain ⟨arg, rest⟩ := pr
          simp only [dirArgs, hk, if_true, hta] at h
          exact absurd h (List.cons_ne_nil _ _)
      | false =>
        simp only [dirArgs, hk, Bool.false_eq_true, if_false] at h
        simp only [subDirective, hk, Bool.false_eq_true, if_false]
        rw [ih h]

theorem subDirective_state {fs : FS} {key : List Char} :
    ∀ {fuel : Nat} {t : List Char} {st : PState},
      (subDirective fs key fuel t st).2 =
        (dirArgs key fuel t).foldl
          (fun s a => (directiveRepl fs key a s).2) st := by
  intro fuel
  induction fuel with
  | zero => intro t st; rfl
  | succ fuel ih =>
    intro t st
    cases t with
    | nil => rfl
    | cons c cs =>
      cases hk : key.isPrefixOf (c :: cs) with
      | true =>
        cases hta : takeArg ((c :: cs).drop key.length) with
        | none => simp only [subDirective, dirArgs, hk, if_true, hta]; exact ih
        | some pr =>
          obtain ⟨arg, rest⟩ := pr
          simp only [subDirective, dirArgs, hk, if_true, hta, List.foldl_cons]
          exact ih
      | false =>
        simp only [subDirective, dirArgs, hk, Bool.false_eq_true, if_false]
        exact ih

theorem directiveRepl_fail {fs : FS} {a : List Char} (key : List Char)
    (st : PState) (h : resolveFails fs a = true) :
    (directiveRepl fs key a st).1 = key ++ a ++ [rbrace] := by
  by_cases hd : fs.dirExists = true
  · cases hl : fs.files.lookup (ensure_tex_extension (String.mk a)) with
    | none => simp [directiveRepl, load_file_if_exists, hd, hl]
    | some o =>
      cases o with
      | none => simp [directiveRepl, load_file_if_exists, hd, hl]
      | some c =>
        exfalso
        simp [resolveFails, hd, hl] at h
  · simp only [directiveRepl, hd, if_false]
    simp at hd
    simp [hd]

theorem subDirective_text_of_fail {fs : FS} {key : List Char} :
    ∀ {fuel : Nat} {t : List Char} {st : PState},
      (∀ a ∈ dirArgs key fuel t, resolveFails fs a = true) →
      (subDirective fs key fuel t st).1 = t := by
  intro fuel
  induction fuel with
  | zero => intro t st _; rfl
  | succ fuel ih =>
    intro t st h
    cases t with
    | nil => rfl
    | cons c cs =>
      cases hk : key.isPrefixOf (c :: cs) with
      | true =>
        cases hta : takeArg ((c :: cs).drop key.length) with
        | none =>
          simp only [dirArgs, hk, if_true, hta] at h
          simp only [subDirective, hk, if_true, hta]
          rw [ih h]
        | some pr =>
          obtain ⟨arg, rest⟩ := pr
          simp only [dirArgs, hk, if_true, hta] at h
          simp only [subDirective, hk, if_true, hta]
          have hfail := h arg (List.mem_cons_self arg _)
          have htail : ∀ a ∈ dirArgs key fuel rest, resolveFails fs a = true :=
            fun a ha => h a (List.mem_cons_of_mem _ ha)
          rw [directiveRepl_fail key st hfail, ih htail]
          obtain ⟨_, hsplit⟩ := takeArg_sound hta
          have hpre := isPrefixOf_drop hk
          rw [hsplit] at hpre
          conv_rhs => rw [hpre]
          simp
      | false =>
        simp only [dirArgs, hk, Bool.false_eq_true, if_false] at h
        simp only [subDirective, hk, Bool.false_eq_true, if_false]
        rw [ih h]

theorem directiveRepl_text_irrel (fs : FS) (key a : List Char)
    (st st' : PState) :
    (directiveRepl fs key a st).1 = (directiveRepl fs key a st').1 := by
  by_cases hd : fs.dirExists = true
  · cases hl : fs.files.lookup (ensure_tex_extension (String.mk a)) with
    | none => simp [directiveRepl, load_file_if_exists, hd, hl]
    | some o => cases o <;> simp [directiveRepl, load_file_if_exists, hd, hl]
  · simp at hd
    simp [directiveRepl, hd]

theorem subDirective_text_irrel {fs : FS} {key : List Char} :
    ∀ {fuel : Nat} {t : List Char} (st st' : PState),
      (subDirective fs key fuel t st).1 =
        (subDirective fs key fuel t st').1 := by
  intro fuel
  induction fuel with
  | zero => intro t st st'; rfl
  | succ fuel ih =>
    intro t st st'
    cases t with
    | nil => rfl
    | cons c cs =>
      cases hk : key.isPrefixOf (c :: cs) with
      | true =>
        cases hta : takeArg ((c :: cs).drop key.length) with
        | none =>
          simp only [subDirective, hk, if_true, hta]
          rw [ih st st']
        | some pr =>
          obtain ⟨arg, rest⟩ := pr
          simp only [subDirective, hk, if_true, hta]
          rw [directiveRepl_text_irrel fs key arg st st',
            ih (directiveRepl fs key arg st).2 (directiveRepl fs key arg st').2]
      | false =>
        simp only [subDirective, hk, Bool.false_eq_true, if_false]
        rw [ih st st']

theorem replace_exsetinput_text_irrel (fs : FS) (t : List Char)
    (st st' : PState) :
    (replace_exsetinput fs t st).1 = (replace_exsetinput fs t st').1 :=
  subDirective_text_irrel st st'

theorem replace_exinput_text_irrel (fs : FS) (t : List Char)
    (st st' : PState) :
    (replace_exinput fs t st).1 = (replace_exinput fs t st').1 :=
  subDirective_text_irrel st st'

theorem process_once_text (fs : FS) (t : List Char) (st : PState) :
    (process_once fs t st).1 = passText fs t := by
  show replace_print_tokens
      (replace_exinput fs (replace_exsetinput fs t st).1
        (replace_exsetinput fs t st).2).1 =
    replace_print_tokens
      (replace_exinput fs (replace_exsetinput fs t initState).1
        (replace_exsetinput fs t initState).2).1
  have h1 : (replace_exsetinput fs t st).1 =
      (replace_exsetinput fs t initState).1 :=
    replace_exsetinput_text_irrel fs t st initState
  rw [h1]
  rw [replace_exinput_text_irrel fs (replace_exsetinput fs t initState).1
    (replace_exsetinput fs t st).2 (replace_exsetinput fs t initState).2]

/-! ### Warning-count invariants -/

theorem dirWarnCount_append (l l' : List Warning) :
    dirWarnCount (l ++ l') = dirWarnCount l + dirWarnCount l' := by
  induction l with
  | nil => simp [dirWarnCount]
  | cons w l ih => cases w <;> simp [dirWarnCount, ih, Nat.add_right_comm]

theorem mpCount_append (l l' : List Warning) :
    mpCount (l ++ l') = mpCount l + mpCount l' := by
  induction l with
  | nil => simp [mpCount]
  | cons w l ih => cases w <;> simp [mpCount, ih, Nat.add_right_comm]

theorem dirMeasure_warnOnce (st : PState) :
    dirMeasure (warn_missing_exercises_dir_once st) = dirMeasure st := by
  cases h : st.warnedMissingDir with
  | true => simp [warn_missing_exercises_dir_once, h]
  | false =>
    simp [warn_missing_exercises_dir_once, h, dirMeasure, dirWarnCount_append,
      dirWarnCount]

theorem mpCount_warnOnce (st : PState) :
    mpCount (warn_missing_exercises_dir_once st).log = mpCount st.log := by
  cases h : st.warnedMissingDir with
  | true => simp [warn_missing_exercises_dir_once, h]
  | false => simp [warn_missing_exercises_dir_once, h, mpCount_append, mpCount]

theorem dirMeasure_load (fs : FS) (st : PState) (p : String) :
    dirMeasure (load_file_if_exists fs st p).2 = dirMeasure st := by
  cases hl : fs.files.lookup (ensure_tex_extension p) with
  | none =>
    simp [load_file_if_exists, hl, dirMeasure, dirWarnCount_append, dirWarnCount]
  | some o =>
    cases o <;>
      simp [load_file_if_exists, hl, dirMeasure, dirWarnCount_append,
        dirWarnCount]

theorem mpCount_load (fs : FS) (st : PState) (p : String) :
    mpCount (load_file_if_exists fs st p).2.log = mpCount st.log := by
  cases hl : fs.files.lookup (ensure_tex_extension p) with
  | none => simp [load_file_if_exists, hl, mpCount_append, mpCount]
  | some o => cases o <;> simp [load_file_if_exists, hl, mpCount_append, mpCount]

theorem directiveRepl_state (fs : FS) (key a : List Char) (st : PState) :
    (directiveRepl fs key a st).2 =
      if fs.dirExists then (load_file_if_exists fs st (String.mk a)).2
      else warn_missing_exercises_dir_once st := by
  cases hd : fs.dirExists with
  | true =>
    simp only [directiveRepl, hd, if_true]
    cases hl : load_file_if_exists fs st (String.mk a) with
    | mk o st' => cases o <;> simp [hl]
  | false => simp [directiveRepl, hd]

theorem dirMeasure_repl (fs : FS) (key a : List Char) (st : PState) :
    dirMeasure (directiveRepl fs key a st).2 = dirMeasure st := by
  rw [directiveRepl_state]
  cases hd : fs.dirExists with
  | true => simp [hd, dirMeasure_load]
  | false => simp [hd, dirMeasure_warnOnce]

theorem mpCount_repl (fs : FS) (key a : List Char) (st : PState) :
    mpCount (directiveRepl fs key a st).2.log = mpCount st.log := by
  rw [directiveRepl_state]
  cases hd : fs.dirExists with
  | true => simp [hd, mpCount_load]
  | false => simp [hd, mpCount_warnOnce]

theorem dirMeasure_foldl (fs : FS) (key : List Char) :
    ∀ (args : List (List Char)) (st : PState),
      dirMeasure (args.foldl (fun s a => (directiveRepl fs key a s).2) st) =
        dirMeasure st := by
  intro args
  induction args with
  | nil => intro st; rfl
  | cons a args ih =>
    intro st
    rw [List.foldl_cons, ih, dirMeasure_repl]

theorem mpCount_foldl (fs : FS) (key : List Char) :
    ∀ (args : List (List Char)) (st : PState),
      mpCount ((args.foldl (fun s a => (directiveRepl fs key a s).2) st).log) =
        mpCount st.log := by
  intro args
  induction args with
  | nil => intro st; rfl
  | cons a args ih =>
    intro st
    rw [List.foldl_cons, ih, mpCount_repl]

theorem dirMeasure_sub (fs : FS) (key : List Char) (fuel : Nat)
    (t : List Char) (st : PState) :
    dirMeasure (subDirective fs key fuel t st).2 = dirMeasure st := by
  rw [subDirective_state, dirMeasure_foldl]

theorem mpCount_sub (fs : FS) (key : List Char) (fuel : Nat)
    (t : List Char) (st : PState) :
    mpCount (subDirective fs key fuel t st).2.log = mpCount st.log := by
  rw [subDirective_state, mpCount_foldl]

theorem process_once_state (fs : FS) (t : List Char) (st : PState) :
    (process_once fs t st).2 =
      (replace_exinput fs (replace_exsetinput fs t st).1
        (replace_exsetinput fs t st).2).2 := rfl

theorem dirMeasure_once (fs : FS) (t : List Char) (st : PState) :
    dirMeasure (process_once fs t st).2 = dirMeasure st := by
  rw [process_once_state]
  unfold replace_exinput replace_exsetinput
  rw [dirMeasure_sub, dirMeasure_sub]

theorem mpCount_once (fs : FS) (t : List Char) (st : PState) :
    mpCount (process_once fs t st).2.log = mpCount st.log := by
  rw [process_once_state]
  unfold replace_exinput replace_exsetinput
  rw [mpCount_sub, mpCount_sub]

theorem dirMeasure_loop (fs : FS) (m : Nat) :
    ∀ (fuel : Nat) (t : List Char) (st : PState),
      dirMeasure (processLoop fs m fuel t st).2 = dirMeasure st := by
  intro fuel
  induction fuel with
  | zero =>
    intro t st
    simp [processLoop, dirMeasure, dirWarnCount_append, dirWarnCount]
  | succ fuel ih =>
    intro t st
    by_cases h : (process_once fs t st).1 = t
    · simp only [processLoop]
      rw [if_pos h]
      exact dirMeasure_once fs t st
    · simp only [processLoop]
      rw [if_neg h, ih, dirMeasure_once]

theorem dirWarnCount_le (st : PState) :
    dirWarnCount st.log ≤ dirMeasure st := by
  unfold dirMeasure
  split <;> omega

/-! ### The pass loop -/

theorem processLoop_of_fixed (fs : FS) (m fuel : Nat) (t : List Char)
    (st st' : PState) (h : process_once fs t st = (t, st')) :
    processLoop fs m (fuel + 1) t st = (t, st') := by
  simp [processLoop, h]

theorem processLoop_spec (fs : FS) (m : Nat) :
    ∀ (fuel : Nat) (t : List Char) (st : PState),
      (∃ k, k < fuel ∧ passText fs (iterPass fs k t) = iterPass fs k t ∧
        (processLoop fs m fuel t st).1 = iterPass fs k t ∧
        mpCount (processLoop fs m fuel t st).2.log = mpCount st.log) ∨
      ((∀ k, k < fuel → passText fs (iterPass fs k t) ≠ iterPass fs k t) ∧
        (processLoop fs m fuel t st).1 = iterPass fs fuel t ∧
        mpCount (processLoop fs m fuel t st).2.log = mpCount st.log + 1) := by
  intro fuel
  induction fuel with
  | zero =>
    intro t st
    right
    refine ⟨fun k hk => absurd hk (Nat.not_lt_zero k), rfl, ?_⟩
    simp [processLoop, mpCount_append, mpCount]
  | succ fuel ih =>
    intro t st
    have hpt : (process_once fs t st).1 = passText fs t :=
      process_once_text fs t st
    by_cases h : (process_once fs t st).1 = t
    · left
      refine ⟨0, Nat.succ_pos fuel, ?_, ?_, ?_⟩
      · show passText fs t = t
        rw [← hpt]; exact h
      · show (processLoop fs m (fuel + 1) t st).1 = t
        simp only [processLoop]
        rw [if_pos h]
        exact h
      · simp only [processLoop]
        rw [if_pos h]
        exact mpCount_once fs t st
    · have hres : processLoop fs m (fuel + 1) t st =
          processLoop fs m fuel (process_once fs t st).1
            (process_once fs t st).2 := by
        simp only [processLoop]
        rw [if_neg h]
      rcases ih (process_once fs t st).1 (process_once fs t st).2 with
        ⟨k, hk, hfix, hr, hmp⟩ | ⟨hall, hr, hmp⟩
      · left
        have e : iterPass fs (k + 1) t =
            iterPass fs k (process_once fs t st).1 := by
          show iterPass fs k (passText fs t) = _
          rw [hpt]
        refine ⟨k + 1, Nat.succ_lt_succ hk, ?_, ?_, ?_⟩
        · rw [e]; exact hfix
        · rw [hres, e]; exact hr
        · rw [hres, hmp, mpCount_once]
      · right
        refine ⟨?_, ?_, ?_⟩
        · intro k hk
          cases k with
          | zero =>
            show passText fs t ≠ t
            rw [← hpt]; exact h
          | succ j =>
            have hj : j < fuel := Nat.lt_of_succ_lt_succ hk
            have e : iterPass fs (j + 1) t =
                iterPass fs j (process_once fs t st).1 := by
              show iterPass fs j (passText fs t) = _
              rw [hpt]
            rw [e]; exact hall j hj
        · have e : iterPass fs (fuel + 1) t =
              iterPass fs fuel (process_once fs t st).1 := by
            show iterPass fs fuel (passText fs t) = _
            rw [hpt]
          rw [hres, e]; exact hr
        · rw [hres, hmp, mpCount_once]

/-! ### Empty captures and directive-free passes -/

theorem dirArgs_ne_nil {key : List Char} :
    ∀ {fuel : Nat} {t : List Char}, ∀ a ∈ dirArgs key fuel t, a ≠ [] := by
  intro fuel
  induction fuel with
  | zero => intro t a ha _; simp [dirArgs] at ha
  | succ fuel ih =>
    intro t a ha
    cases t with
    | nil => simp [dirArgs] at ha
    | cons c cs =>
      cases hk : key.isPrefixOf (c :: cs) with
      | true =>
        cases hta : takeArg ((c :: cs).drop key.length) with
        | none =>
          rw [dirArgs, if_pos hk, hta] at ha
          exact ih a ha
        | some pr =>
          obtain ⟨arg, rest⟩ := pr
          rw [dirArgs, if_pos hk, hta] at ha
          rcases List.mem_cons.mp ha with rfl | ha2
          · exact (takeArg_sound hta).1
          · exact ih a ha2
      | false =>
        rw [dirArgs, if_neg (by simp [hk])] at ha
        exact ih a ha

theorem process_once_id_of_noArgs {fs : FS} {t : List Char} {st : PState}
    (hset : dirArgs exsetinputKey t.length t = [])
    (hex : dirArgs exinputKey t.length t = [])
    (hpr : replace_print_tokens t = t) :
    process_once fs t st = (t, st) := by
  have h1 : replace_exsetinput fs t st = (t, st) := dirArgs_nil_sub hset
  have h2 : replace_exinput fs t st = (t, st) := dirArgs_nil_sub hex
  show (replace_print_tokens
      (replace_exinput fs (replace_exsetinput fs t st).1
        (replace_exsetinput fs t st).2).1,
    (replace_exinput fs (replace_exsetinput fs t st).1
      (replace_exsetinput fs t st).2).2) = (t, st)
  rw [h1]
  show (replace_print_tokens (replace_exinput fs t st).1,
    (replace_exinput fs t st).2) = (t, st)
  rw [h2, hpr]

/-! ### Label-token substitution removes every occurrence of its token -/

theorem containsToken_append {b : Char} {w : List Char} :
    ∀ {a : List Char}, (∀ c ∈ a, c ≠ b) → ∀ (r : List Char),
      containsToken (b :: w) (a ++ r) = containsToken (b :: w) r := by
  intro a
  induction a with
  | nil => intro _ r; rfl
  | cons x a ih =>
    intro h r
    have hx : x ≠ b := h x (List.mem_cons_self x a)
    have hm : tokenMatchAt (b :: w) (x :: (a ++ r)) = false := by
      simp [tokenMatchAt, List.isPrefixOf, beq_eq_false_iff_ne.mpr (Ne.symm hx)]
    rw [List.cons_append]
    show (tokenMatchAt (b :: w) (x :: (a ++ r)) ||
      containsToken (b :: w) (a ++ r)) = containsToken (b :: w) r
    rw [hm, Bool.false_or]
    exact ih (fun c hc => h c (List.mem_cons_of_mem x hc)) r

theorem subToken_fuel {tok repl : List Char} (hne : tok ≠ []) :
    ∀ (f1 : Nat) {f2 : Nat} {l : List Char}, l.length ≤ f1 → l.length ≤ f2 →
      subToken tok repl f1 l = subToken tok repl f2 l := by
  intro f1
  induction f1 with
  | zero =>
    intro f2 l h1 _
    have hl : l = [] := List.length_eq_zero.mp (Nat.le_zero.mp h1)
    subst hl
    cases f2 <;> rfl
  | succ f1 ih =>
    intro f2 l h1 h2
    cases l with
    | nil => cases f2 <;> rfl
    | cons c cs =>
      cases f2 with
      | zero => exact absurd h2 (by simp)
      | succ f2 =>
        have htl : 1 ≤ tok.length := by
          cases tok with
          | nil => exact absurd rfl hne
          | cons _ _ => simp
        have h1' : cs.length + 1 ≤ f1 + 1 := by simpa using h1
        have h2' : cs.length + 1 ≤ f2 + 1 := by simpa using h2
        cases hm : tok.isPrefixOf (c :: cs) &&
            boundaryOk ((c :: cs).drop tok.length) with
        | true =>
          simp only [subToken, hm, if_true]
          congr 1
          refine ih ?_ ?_
          · simp only [List.length_drop, List.length_cons]
            omega
          · simp only [List.length_drop, List.length_cons]
            omega
        | false =>
          simp only [subToken, hm, Bool.false_eq_true, if_false]
          congr 1
          exact ih (Nat.le_of_succ_le_succ h1') (Nat.le_of_succ_le_succ h2')

theorem subToken_literal {b : Char} (w repl : List Char) :
    ∀ {p : List Char}, (∀ c ∈ p, c ≠ b) → ∀ (fuel : Nat) (cs : List Char),
      subToken (b :: w) repl (p.length + fuel) (p ++ cs) =
        p ++ subToken (b :: w) repl fuel cs := by
  intro p
  induction p with
  | nil => intro _ fuel cs; simp
  | cons x p ih =>
    intro h fuel cs
    have hx : x ≠ b := h x (List.mem_cons_self x p)
    have e : (x :: p).length + fuel = (p.length + fuel) + 1 := by
      simp [Nat.add_right_comm]
    rw [e, List.cons_append]
    have hm : ((b :: w).isPrefixOf (x :: (p ++ cs)) &&
        boundaryOk ((x :: (p ++ cs)).drop (b :: w).length)) = false := by
      simp [List.isPrefixOf, beq_eq_false_iff_ne.mpr (Ne.symm hx)]
    simp only [subToken, hm, Bool.false_eq_true, if_false]
    rw [ih (fun c hc => h c (List.mem_cons_of_mem x hc)) fuel cs]
    simp

theorem subToken_no_new_pfx {b r0 : Char} {w rs : List Char} :
    ∀ {v : List Char}, (∀ c ∈ v, c ≠ b ∧ c ≠ r0) →
      ∀ {fuel : Nat} {cs : List Char}, cs.length ≤ fuel →
        v.isPrefixOf cs = false →
        v.isPrefixOf (subToken (b :: w) (r0 :: rs) fuel cs) = false := by
  intro v
  induction v with
  | nil => intro _ fuel cs _ hpf; simp [List.isPrefixOf] at hpf
  | cons a v ih =>
    intro hv fuel cs hlen hpf
    cases cs with
    | nil => cases fuel <;> simp [subToken, List.isPrefixOf]
    | cons x xs =>
      cases fuel with
      | zero => exact absurd hlen (by simp)
      | succ fuel =>
        cases hm : (b :: w).isPrefixOf (x :: xs) &&
            boundaryOk ((x :: xs).drop (b :: w).length) with
        | true =>
          simp only [subToken, hm, if_true]
          have ha : a ≠ r0 := (hv a (List.mem_cons_self a v)).2
          simp [List.isPrefixOf, beq_eq_false_iff_ne.mpr ha]
        | false =>
          simp only [subToken, hm, Bool.false_eq_true, if_false]
          by_cases hax : a = x
          · subst hax
            have hpf' : v.isPrefixOf xs = false := by
              simpa [List.isPrefixOf] using hpf
            have hxs : xs.length ≤ fuel :=
              Nat.le_of_succ_le_succ (by simpa using hlen)
            have hrec := ih (fun c hc => hv c (List.mem_cons_of_mem a hc))
              hxs hpf'
            simp [List.isPrefixOf, hrec]
          · simp [List.isPrefixOf, beq_eq_false_iff_ne.mpr hax]

theorem subToken_no_token {b r0 : Char} {w rs : List Char}
    (hwb : ∀ c ∈ w, c ≠ b) (hwr : ∀ c ∈ w, c ≠ r0)
    (hrb : ∀ c ∈ r0 :: rs, c ≠ b) (hb : isWordChar b = false) :
    ∀ (fuel : Nat) {l : List Char}, l.length ≤ fuel →
      containsToken (b :: w) (subToken (b :: w) (r0 :: rs) fuel l) = false := by
  intro fuel
  induction fuel with
  | zero =>
    intro l h
    have hl : l = [] := List.length_eq_zero.mp (Nat.le_zero.mp h)
    subst hl
    simp [subToken, containsToken, tokenMatchAt, List.isPrefixOf]
  | succ fuel ih =>
    intro l h
    cases l with
    | nil => simp [subToken, containsToken, tokenMatchAt, List.isPrefixOf]
    | cons c cs =>
      have hcs : cs.length ≤ fuel := Nat.le_of_succ_le_succ (by simpa using h)
      cases hm : (b :: w).isPrefixOf (c :: cs) &&
          boundaryOk ((c :: cs).drop (b :: w).length) with
      | true =>
        simp only [subToken, hm, if_true]
        rw [containsToken_append hrb]
        refine ih ?_
        simp only [List.length_drop, List.length_cons]
        omega
      | false =>
        simp only [subToken, hm, Bool.false_eq_true, if_false]
        have htail := ih hcs
        simp only [containsToken, htail, Bool.or_false]
        by_cases hcb : c = b
        · subst hcb
          by_cases hwp : w.isPrefixOf cs = true
          · -- the prefix was there, so the word boundary must have failed
            have hpre : (c :: w).isPrefixOf (c :: cs) = true := by
              simp [List.isPrefixOf, hwp]
            rw [hpre, Bool.true_and] at hm
            have hband : boundaryOk (cs.drop w.length) = false := by
              simpa [List.drop_succ_cons] using hm
            cases hdrop : cs.drop w.length with
            | nil => rw [hdrop] at hband; simp [boundaryOk] at hband
            | cons x r' =>
              rw [hdrop] at hband
              have hx : isWordChar x = true := by
                simpa [boundaryOk] using hband
              have hpn : ∀ ch ∈ w ++ [x], ch ≠ c := by
                intro ch hch
                rcases List.mem_append.mp hch with h1 | h1
                · exact hwb ch h1
                · have hx2 : ch = x := by simpa using h1
                  subst hx2
                  intro hcontra
                  rw [hcontra, hb] at hx
                  exact Bool.false_ne_true hx
              have hcs2 : cs = (w ++ [x]) ++ r' := by
                have h1 := isPrefixOf_drop hwp
                rw [hdrop] at h1
                rw [h1]
                simp
              have hirr : subToken (c :: w) (r0 :: rs) fuel cs =
                  subToken (c :: w) (r0 :: rs)
                    ((w ++ [x]).length + r'.length) cs := by
                refine subToken_fuel (by simp) fuel hcs ?_
                rw [hcs2]
                simp only [List.length_append, List.length_cons, List.length_nil]
                omega
              rw [hirr]
              conv_lhs => rw [hcs2]
              rw [subToken_literal w (r0 :: rs) hpn r'.length r']
              have hdrop2 :
                  (c :: ((w ++ [x]) ++
                    subToken (c :: w) (r0 :: rs) r'.length r')).drop
                      (c :: w).length =
                  x :: subToken (c :: w) (r0 :: rs) r'.length r' := by
                simp only [List.length_cons, List.drop_succ_cons,
                  List.append_assoc, List.singleton_append]
                exact List.drop_left w _
              simp only [tokenMatchAt, hdrop2, boundaryOk, hx,
                Bool.not_true, Bool.and_false]
          · have hwp' : w.isPrefixOf cs = false := by
              cases hval : w.isPrefixOf cs with
              | true => exact absurd hval hwp
              | false => rfl
            have hvcond : ∀ ch ∈ w, ch ≠ c ∧ ch ≠ r0 :=
              fun ch hch => ⟨hwb ch hch, hwr ch hch⟩
            have hD := @subToken_no_new_pfx c r0 w rs w hvcond fuel cs hcs hwp'
            simp [tokenMatchAt, List.isPrefixOf, hD]
        · simp [tokenMatchAt, List.isPrefixOf,
            beq_eq_false_iff_ne.mpr (Ne.symm hcb)]

theorem process_default_eq (fs : FS) (t : List Char) (st : PState) :
    process_default fs t st =
      processLoop fs DEFAULT_MAX_PASSES DEFAULT_MAX_PASSES t st := rfl

/-! ### Concrete run scenarios used by the claim theorems -/

/-- A document consisting of a single `exinput` directive with argument
`foo`. -/
def fooDoc : List Char := ("\\exinput" ++ "\x7bfoo\x7d").data

/-- Exercises directory present; the only file lives under the base
directory, at `exercises/foo.tex`. -/
def baseDirOnlyFS : FS :=
  { dirExists := true, files := [(EXERCISES_DIR ++ "/foo.tex", some "X")] }

/-- Exercises directory present; `foo.tex` exists relative to the working
directory (not under the base directory). -/
def cwdFooFS : FS := { dirExists := true, files := [("foo.tex", some "Y")] }

/-- Exercises directory present; `foo.tex` contains the `printreview`
token. -/
def fooReviewFS : FS :=
  { dirExists := true, files := [("foo.tex", some "\\printreview")] }

/-- A document consisting of a single `exinput` directive with argument
`x`. -/
def xDoc : List Char := ("\\exinput" ++ "\x7bx\x7d").data

/-- `x.tex` whose content is exactly the directive that includes it. -/
def xSelfFS : FS :=
  { dirExists := true, files := [("x.tex", some ("\\exinput" ++ "\x7bx\x7d"))] }

/-- `x.tex` whose content strictly grows on each inclusion. -/
def xGrowFS : FS :=
  { dirExists := true,
    files := [("x.tex", some ("A\\exinput" ++ "\x7bx\x7d"))] }

/-- No exercises directory at all. -/
def noDirFS : FS := { dirExists := false, files := [] }

/-- An `exinput` directive whose argument is itself a label token. -/
def nestedPrintDoc : List Char := ("\\exinput" ++ "\x7b\\printreview\x7d").data

/-! ### The claims -/

/-- C1, counterexample: with the base directory present and the included file
stored under it (at `exercises/foo.tex`), the directive is NOT resolved — the
code looks the path up relative to the working directory, warns about
`foo.tex` and leaves the text unchanged; and a plain `foo.tex` in the working
directory (outside the base directory) IS what gets substituted. -/
theorem c1_counterexample :
    (process_default baseDirOnlyFS fooDoc initState).1 = fooDoc ∧
    (process_default baseDirOnlyFS fooDoc initState).2.log =
      [Warning.missingFile "foo.tex"] ∧
    fooDoc ≠ "X".data ∧
    (process_default cwdFooFS fooDoc initState).1 = "Y".data := by
  refine ⟨by decide, by decide, by decide, by decide⟩

/-- C1 (amended): when the base directory exists, a content-input argument
`p` resolves to the contents stored at `ensure_tex_extension p` relative to
the current working directory; the base directory is only existence-checked,
never prepended to the path. -/
theorem c1_amended (fs : FS) (p : List Char) (c : String) (st : PState)
    (hd : fs.dirExists = true)
    (hl : fs.files.lookup (ensure_tex_extension (String.mk p)) =
      some (some c)) :
    directiveRepl fs exinputKey p st = (c.data, st) := by
  simp [directiveRepl, load_file_if_exists, hd, hl]

/-- C1 witness: the amended statement evaluated on the concrete
working-directory file `foo.tex` containing `Y`. -/
theorem c1_amended_witness :
    directiveRepl cwdFooFS exinputKey ("foo".data) initState =
      ("Y".data, initState) :=
  c1_amended cwdFooFS ("foo".data) "Y" initState (by decide) (by decide)

/-- C2, counterexample: with `foo.tex` containing the `printreview` token,
the FIRST pass already produces `Review` (the label substitution runs after
content input inside the same pass), so the pass-one result is not the file's
content and the second pass changes nothing. -/
theorem c2_counterexample :
    (process_once fooReviewFS fooDoc initState).1 = "Review".data ∧
    "Review".data ≠ "\\printreview".data ∧
    passText fooReviewFS (passText fooReviewFS fooDoc) =
      passText fooReviewFS fooDoc := by
  refine ⟨by decide, by decide, by decide⟩

/-- C2 (amended): the content input replaces the directive with the file's
content and the label substitution later in the same pass turns the embedded
`printreview` token into `Review`, so the first pass already yields `Review`;
the net result of full processing is `Review` and no warning is emitted. -/
theorem c2_amended :
    (process_once fooReviewFS fooDoc initState).1 = "Review".data ∧
    process_default fooReviewFS fooDoc initState = ("Review".data, initState) := by
  refine ⟨by decide, by decide⟩

/-- C3, counterexample: a self-referential inclusion whose file content is
exactly the including directive reproduces the text verbatim, so the very
first pass is a fixed point: the run stops with an empty warning log — the
pass-budget-exhaustion warning is NOT emitted. -/
theorem c3_counterexample :
    (process_default xSelfFS xDoc initState).2.log = [] ∧
    (process_default xSelfFS xDoc initState).1 = xDoc := by
  refine ⟨by decide, by decide⟩

/-- C3 (amended): expansion always terminates within the pass cap (the result
is some bounded iterate of the pass function); the budget-exhaustion warning
is emitted when no fixed point is reached within the cap, as in the growing
self-inclusion `A\exinput` of `x`, but not when the self-inclusion reproduces
the text exactly. -/
theorem c3_amended :
    (∀ (fs : FS) (t : List Char) (st : PState) (n : Nat),
      ∃ k, k ≤ n ∧ (process_with_recursion fs t st n).1 = iterPass fs k t) ∧
    (process_default xGrowFS xDoc initState).2.log =
      [Warning.maxPasses 10] ∧
    (process_default xGrowFS xDoc initState).1 =
      ("AAAAAAAAAA" ++ "\\exinput" ++ "\x7bx\x7d").data := by
  refine ⟨?_, by decide, by decide⟩
  intro fs t st n
  rcases processLoop_spec fs n n t st with ⟨k, hk, _, hres, _⟩ | ⟨_, hres, _⟩
  · exact ⟨k, Nat.le_of_lt hk, hres⟩
  · exact ⟨n, Nat.le_refl n, hres⟩

/-- C4: on a document whose only directive occurrence is one `exinput` of
`foo` (no `exsetinput` matches, no label tokens to rewrite), with the base
directory present and `foo.tex` absent, the whole run returns the document
unchanged and logs exactly one warning, the missing-file warning naming
`foo.tex`. -/
theorem c4_missing_foo_warning (fs : FS) (t : List Char)
    (hd : fs.dirExists = true)
    (hf : fs.files.lookup "foo.tex" = none)
    (hset : dirArgs exsetinputKey t.length t = [])
    (hex : dirArgs exinputKey t.length t = ["foo".data])
    (hpr : replace_print_tokens t = t) :
    process_with_recursion fs t initState DEFAULT_MAX_PASSES =
      (t, { warnedMissingDir := false,
            log := [Warning.missingFile "foo.tex"] }) := by
  have hete : ensure_tex_extension (String.mk ("foo".data)) = "foo.tex" := by
    decide
  have hfail : resolveFails fs ("foo".data) = true := by
    unfold resolveFails
    rw [hete, hd, hf]
    rfl
  have h1 : replace_exsetinput fs t initState = (t, initState) :=
    dirArgs_nil_sub hset
  have h2t : (replace_exinput fs t initState).1 = t := by
    show (subDirective fs exinputKey t.length t initState).1 = t
    refine subDirective_text_of_fail ?_
    intro a ha
    have ha' : a = "foo".data := by
      rw [hex] at ha
      simpa using ha
    rw [ha']
    exact hfail
  have h2s : (replace_exinput fs t initState).2 =
      { warnedMissingDir := false,
        log := [Warning.missingFile "foo.tex"] } := by
    show (subDirective fs exinputKey t.length t initState).2 = _
    rw [subDirective_state, hex]
    simp only [List.foldl_cons, List.foldl_nil]
    rw [directiveRepl_state]
    simp only [hd, if_true]
    simp [load_file_if_exists, hete, hf, initState]
  have hpass : process_once fs t initState =
      (t, { warnedMissingDir := false,
            log := [Warning.missingFile "foo.tex"] }) := by
    show (replace_print_tokens
        (replace_exinput fs (replace_exsetinput fs t initState).1
          (replace_exsetinput fs t initState).2).1,
      (replace_exinput fs (replace_exsetinput fs t initState).1
        (replace_exsetinput fs t initState).2).2) = _
    rw [h1]
    show (replace_print_tokens (replace_exinput fs t initState).1,
      (replace_exinput fs t initState).2) = _
    rw [h2t, h2s, hpr]
  show processLoop fs DEFAULT_MAX_PASSES DEFAULT_MAX_PASSES t initState = _
  exact processLoop_of_fixed fs DEFAULT_MAX_PASSES 9 t initState _ hpass

/-- C4 witness: the concrete document `Intro \exinput of foo End` against a
filesystem with the base directory but no files. -/
theorem c4_witness :
    process_with_recursion { dirExists := true, files := [] }
        (("Intro \\exinput" ++ "\x7bfoo\x7d End").data)
        initState DEFAULT_MAX_PASSES =
      (("Intro \\exinput" ++ "\x7bfoo\x7d End").data,
        { warnedMissingDir := false,
          log := [Warning.missingFile "foo.tex"] }) :=
  c4_missing_foo_warning { dirExists := true, files := [] } _
    (by decide) (by decide) (by decide) (by decide) (by decide)

/-- C5: the expander returns an iterate of the pass function: either some
pass (strictly within the budget) reproduced its input, the result is that
fixed point and no exhaustion warning is added, or no pass did, the result is
the `max_passes`-fold iterate (the last computed text) and exactly one
exhaustion warning is added; the `max_passes` parameter defaults to 10. -/
theorem c5_fixed_point_loop (fs : FS) (t : List Char) (st : PState)
    (n : Nat) :
    (DEFAULT_MAX_PASSES = 10 ∧
      process_default fs t st = process_with_recursion fs t st 10) ∧
    ((∃ k, k < n ∧ passText fs (iterPass fs k t) = iterPass fs k t ∧
        (process_with_recursion fs t st n).1 = iterPass fs k t ∧
        mpCount (process_with_recursion fs t st n).2.log = mpCount st.log) ∨
      ((∀ k, k < n → passText fs (iterPass fs k t) ≠ iterPass fs k t) ∧
        (process_with_recursion fs t st n).1 = iterPass fs n t ∧
        mpCount (process_with_recursion fs t st n).2.log =
          mpCount st.log + 1)) :=
  ⟨⟨rfl, rfl⟩, processLoop_spec fs n n t st⟩

/-- C6, counterexample: with the base directory absent, the directive
occurrence `\exinput` of the token `\printreview` does NOT remain textually
unchanged — the label substitution rewrites the token inside the argument,
yielding `\exinput` of `Review` — though only one missing-directory warning
is logged. -/
theorem c6_counterexample :
    (process_default noDirFS nestedPrintDoc initState).1 =
      ("\\exinput" ++ "\x7bReview\x7d").data ∧
    ("\\exinput" ++ "\x7bReview\x7d").data ≠ nestedPrintDoc ∧
    (process_default noDirFS nestedPrintDoc initState).2.log =
      [Warning.missingDir] := by
  refine ⟨by decide, by decide, by decide⟩

/-- C6 (amended): when the base directory is absent both content-input
substitutions leave the text unchanged in every pass (label-token
substitution may still rewrite label tokens occurring inside a directive's
argument), and over a whole run the missing-base-directory warning is logged
at most once. -/
theorem c6_amended (fs : FS) (t : List Char) (st : PState) (n : Nat)
    (hd : fs.dirExists = false) :
    (replace_exsetinput fs t st).1 = t ∧
    (replace_exinput fs t st).1 = t ∧
    dirWarnCount (process_with_recursion fs t initState n).2.log ≤ 1 := by
  have hfail : ∀ a : List Char, resolveFails fs a = true := by
    intro a
    unfold resolveFails
    rw [hd]
    simp
  refine ⟨?_, ?_, ?_⟩
  · show (subDirective fs exsetinputKey t.length t st).1 = t
    exact subDirective_text_of_fail (fun a _ => hfail a)
  · show (subDirective fs exinputKey t.length t st).1 = t
    exact subDirective_text_of_fail (fun a _ => hfail a)
  · have h1 : dirMeasure (processLoop fs n n t initState).2 =
        dirMeasure initState := dirMeasure_loop fs n n t initState
    have h2 := dirWarnCount_le (processLoop fs n n t initState).2
    have h3 : dirMeasure initState = 1 := rfl
    show dirWarnCount (processLoop fs n n t initState).2.log ≤ 1
    omega

/-- C6 witness: the amended statement evaluated at the missing-directory
filesystem and the one-directive document. -/
theorem c6_amended_witness :
    (replace_exsetinput noDirFS fooDoc initState).1 = fooDoc ∧
    (replace_exinput noDirFS fooDoc initState).1 = fooDoc ∧
    dirWarnCount
      (process_with_recursion noDirFS fooDoc initState 10).2.log ≤ 1 :=
  c6_amended noDirFS fooDoc initState 10 (by decide)

/-- C7: a directive occurrence whose resolution fails (missing base
directory, missing file, or unreadable file) is replaced by the verbatim
matched text `key ++ arg ++ closing brace`, and consequently a scan all of
whose captured arguments fail to resolve returns the input text character for
character. -/
theorem c7_unresolved_verbatim :
    (∀ (fs : FS) (key a : List Char) (st : PState),
      resolveFails fs a = true →
      (directiveRepl fs key a st).1 = key ++ a ++ [rbrace]) ∧
    (∀ (fs : FS) (t : List Char) (st : PState),
      (∀ a ∈ dirArgs exinputKey t.length t, resolveFails fs a = true) →
      (replace_exinput fs t st).1 = t) ∧
    (∀ (fs : FS) (t : List Char) (st : PState),
      (∀ a ∈ dirArgs exsetinputKey t.length t, resolveFails fs a = true) →
      (replace_exsetinput fs t st).1 = t) := by
  refine ⟨?_, ?_, ?_⟩
  · intro fs key a st h
    exact directiveRepl_fail key st h
  · intro fs t st h
    show (subDirective fs exinputKey t.length t st).1 = t
    exact subDirective_text_of_fail h
  · intro fs t st h
    show (subDirective fs exsetinputKey t.length t st).1 = t
    exact subDirective_text_of_fail h

/-- C7 witness: the verbatim-replacement statement on a concrete failing
resolution (missing base directory). -/
theorem c7_witness :
    (directiveRepl noDirFS exinputKey ("foo".data) initState).1 =
      exinputKey ++ "foo".data ++ [rbrace] :=
  c7_unresolved_verbatim.1 noDirFS exinputKey ("foo".data) initState
    (by decide)

/-- C8: each label-substitution stage removes every boundary-valid occurrence
of its own token from any input text; the label stage neither consults the
filesystem nor touches the warning state (the state of a whole pass is the
state after the two content stages); and the three tokens rewrite to their
fixed labels. -/
theorem c8_label_tokens :
    (∀ t : List Char,
      containsToken conceptsTok
        (subToken conceptsTok conceptsLabel t.length t) = false) ∧
    (∀ t : List Char,
      containsToken problemsTok
        (subToken problemsTok problemsLabel t.length t) = false) ∧
    (∀ t : List Char,
      containsToken reviewTok (replace_print_tokens t) = false) ∧
    (∀ (fs : FS) (t : List Char) (st : PState),
      (process_once fs t st).2 =
        (replace_exinput fs (replace_exsetinput fs t st).1
          (replace_exsetinput fs t st).2).2) ∧
    replace_print_tokens conceptsTok = conceptsLabel ∧
    replace_print_tokens problemsTok = problemsLabel ∧
    replace_print_tokens reviewTok = reviewLabel := by
  have hc : ∀ (fuel : Nat) {l : List Char}, l.length ≤ fuel →
      containsToken conceptsTok
        (subToken conceptsTok conceptsLabel fuel l) = false := by
    have e1 : conceptsTok = '\\' :: "printconcepts".data := by decide
    have e2 : conceptsLabel = 'T' :: "erms and Concepts".data := by decide
    rw [e1, e2]
    exact subToken_no_token (by decide) (by decide) (by decide) (by decide)
  have hp : ∀ (fuel : Nat) {l : List Char}, l.length ≤ fuel →
      containsToken problemsTok
        (subToken problemsTok problemsLabel fuel l) = false := by
    have e1 : problemsTok = '\\' :: "printproblems".data := by decide
    have e2 : problemsLabel = 'P' :: "roblems".data := by decide
    rw [e1, e2]
    exact subToken_no_token (by decide) (by decide) (by decide) (by decide)
  have hr : ∀ (fuel : Nat) {l : List Char}, l.length ≤ fuel →
      containsToken reviewTok
        (subToken reviewTok reviewLabel fuel l) = false := by
    have e1 : reviewTok = '\\' :: "printreview".data := by decide
    have e2 : reviewLabel = 'R' :: "eview".data := by decide
    rw [e1, e2]
    exact subToken_no_token (by decide) (by decide) (by decide) (by decide)
  refine ⟨fun t => hc t.length (Nat.le_refl _),
    fun t => hp t.length (Nat.le_refl _),
    fun t => ?_,
    fun fs t st => process_once_state fs t st,
    by decide, by decide, by decide⟩
  exact hr _ (Nat.le_refl _)

/-- C9: argument-path normalization: `bar` and `bar.tex` both normalize to
`bar.tex`, and a different suffix such as `bar.txt` is replaced (`bar.tex`),
not concatenated (`bar.txt.tex`). -/
theorem c9_extension_normalization :
    ensure_tex_extension "bar" = "bar.tex" ∧
    ensure_tex_extension "bar.tex" = "bar.tex" ∧
    ensure_tex_extension "bar.txt" = "bar.tex" ∧
    ensure_tex_extension "bar.txt" ≠ "bar.txt.tex" := by
  refine ⟨by decide, by decide, by decide, by decide⟩

/-- C10: the argument capture never produces an empty argument (every
captured argument of either directive scanner is nonempty), and a document
consisting of a content-input directive with empty braces is returned
verbatim with the warning state untouched, for every filesystem. -/
theorem c10_empty_argument :
    (∀ (fuel : Nat) (t : List Char),
      ((dirArgs exinputKey fuel t).all fun a => !a.isEmpty) = true ∧
      ((dirArgs exsetinputKey fuel t).all fun a => !a.isEmpty) = true) ∧
    (∀ (fs : FS) (st : PState),
      process_default fs (("\\exinput" ++ "\x7b\x7d").data) st =
        (("\\exinput" ++ "\x7b\x7d").data, st)) ∧
    (∀ (fs : FS) (st : PState),
      process_default fs (("\\exsetinput" ++ "\x7b\x7d").data) st =
        (("\\exsetinput" ++ "\x7b\x7d").data, st)) := by
  refine ⟨?_, ?_, ?_⟩
  · intro fuel t
    constructor
    · rw [List.all_eq_true]
      intro a ha
      have hne := dirArgs_ne_nil a ha
      cases a with
      | nil => exact absurd rfl hne
      | cons x xs => rfl
    · rw [List.all_eq_true]
      intro a ha
      have hne := dirArgs_ne_nil a ha
      cases a with
      | nil => exact absurd rfl hne
      | cons x xs => rfl
  · intro fs st
    rw [process_default_eq]
    exact processLoop_of_fixed fs DEFAULT_MAX_PASSES 9 _ st st
      (process_once_id_of_noArgs (by decide) (by decide) (by decide))
  · intro fs st
    rw [process_default_eq]
    exact processLoop_of_fixed fs DEFAULT_MAX_PASSES 9 _ st st
      (process_once_id_of_noArgs (by decide) (by decide) (by decide))

end Merger
